import Mathlib

set_option maxHeartbeats 1000000

set_option linter.unusedVariables false

/-!
Shallow embedding of the conservative mark-and-sweep garbage collector of
`src/src/gc.c` (types in `src/include/gc.h`).

Machine addresses and pointer-sized words are modelled as `Nat`; the word
width `sizeof(void*)` is the LP64 value 8.  Heap and stack contents are a
total word-read function `mem : Nat → Nat` giving the value stored at a
byte address.  The intrusive singly linked `Allocation` list is a Lean
list (the `next` field becomes list structure, head = most recent).  The
out-of-memory `assert` aborts in `gc_malloc` are modelled by an `Option`
result (`none` = process aborted), and the destructor/`free` calls made
by `gc_sweep` are recorded in an explicit event trace.
-/

/-- One registry entry: mirrors `struct Allocation` (`ptr`, `size`,
`marked`, `dtor`); the `next` field is represented by list structure.
A destructor is identified by a `Nat` token. -/
structure Allocation where
  ptr : Nat
  size : Nat
  marked : Bool
  dtor : Option Nat
deriving DecidableEq

/-- Mirrors `struct GarbageCollector`: the allocation list head and the
stack bottom recorded at `gc_init`. -/
structure GarbageCollector where
  allocations : List Allocation
  stack_bottom : Nat
deriving DecidableEq

/-- `sizeof(void*)` on the reference LP64 platform. -/
def ptrSize : Nat := 8

/-- Externally visible effects of `gc_sweep`: a destructor call
`finalize dtor ptr` and a memory release `release ptr` (the `free`). -/
inductive SweepEvent where
  | finalize (dtor : Nat) (ptr : Nat)
  | release (ptr : Nat)
deriving DecidableEq

/-- Mirrors `add_allocation`: link the new entry in at the list head. -/
def add_allocation (gc : GarbageCollector) (alloc : Allocation) : GarbageCollector :=
  { gc with allocations := alloc :: gc.allocations }

/-- Mirrors `gc_init`: the allocation list is set to empty and the stack
bottom recorded.  The body performs no destructor or `free` call, hence
the empty event trace; whatever the collector tracked before is simply
forgotten. -/
def gc_init (gc : GarbageCollector) (stack_bottom : Nat) :
    GarbageCollector × List SweepEvent :=
  ({ allocations := [], stack_bottom := stack_bottom }, [])

/-- Mirrors `gc_malloc`.  `metaOk` says whether `malloc(sizeof(Allocation))`
succeeds and `blockPtr` is the result of `malloc(size)` (`none` = NULL);
when either fails the `assert` aborts the process, modelled as `none`.
On success the entry is registered unmarked and the raw pointer returned. -/
def gc_malloc (gc : GarbageCollector) (metaOk : Bool) (blockPtr : Option Nat)
    (size : Nat) (dtor : Option Nat) : Option (GarbageCollector × Nat) :=
  if metaOk = false then none
  else
    match blockPtr with
    | none => none
    | some p =>
      some (add_allocation gc { ptr := p, size := size, marked := false, dtor := dtor }, p)

/-- Byte offsets visited by the child-scan loop of `gc_mark`
(`for (char* p = a->ptr; p < (char*)a->ptr + a->size; p += sizeof(void*))`):
all multiples `k * ptrSize` with `k * ptrSize < size`.  Note the guard is
`p < ptr + size`, not `p + sizeof(void*) <= ptr + size`, so a trailing
word that starts inside the block but extends past its end is still read. -/
def scanOffsets (size : Nat) : List Nat :=
  (List.range ((size + ptrSize - 1) / ptrSize)).map (fun k => k * ptrSize)

/-- The candidate child words read from a block at base `p` of byte length `s`. -/
def childVals (mem : Nat → Nat) (p s : Nat) : List Nat :=
  (scanOffsets s).map (fun off => mem (p + off))

/-- The list walk of `gc_mark`
(`for (Allocation* a = gc->allocations; a; a = a->next)`), with the
recursive handling of child words abstracted as `markChild`.  Marking
only flips flags in place, so the walk is index-based over a state whose
length never changes. -/
def gcMarkGo (mem : Nat → Nat) (markChild : List Allocation → Nat → List Allocation)
    (v : Nat) : List Nat → List Allocation → List Allocation
  | [], st => st
  | i :: rest, st =>
    match st.get? i with
    | none => gcMarkGo mem markChild v rest st
    | some a =>
      if a.ptr = v ∧ a.marked = false then
        let st1 := st.set i { a with marked := true }
        let st2 := (childVals mem a.ptr a.size).foldl markChild st1
        gcMarkGo mem markChild v rest st2
      else
        gcMarkGo mem markChild v rest st

/-- Mirrors `gc_mark`, fueled: the C recursion terminates because every
recursive call follows a fresh marking, so recursion depth is bounded by
the number of unmarked entries; `fuel` makes that bound explicit. -/
def gc_mark (mem : Nat → Nat) : Nat → List Allocation → Nat → List Allocation
  | 0, st, _ => st
  | fuel + 1, st, v => gcMarkGo mem (fun s c => gc_mark mem fuel s c) v (List.range st.length) st

/-- `gc_mark` run with fuel that is always sufficient (`length + 1`). -/
def gcMarkFull (mem : Nat → Nat) (st : List Allocation) (v : Nat) : List Allocation :=
  gc_mark mem (st.length + 1) st v

/-- Mirrors `gc_sweep`: walk the registry; an unmarked entry has its
destructor (if any) invoked, then its memory freed, and is unlinked; a
marked entry is demarked and kept.  Returns the surviving registry and
the destructor/free events in execution order. -/
def gc_sweep : List Allocation → List Allocation × List SweepEvent
  | [] => ([], [])
  | entry :: rest =>
    if entry.marked = false then
      ((gc_sweep rest).1,
        (match entry.dtor with
          | some d => [SweepEvent.finalize d entry.ptr]
          | none => []) ++ SweepEvent.release entry.ptr :: (gc_sweep rest).2)
    else
      ({ entry with marked := false } :: (gc_sweep rest).1, (gc_sweep rest).2)

/-- Mirrors `gc_count_allocations`: walk the list and count. -/
def gc_count_allocations (gc : GarbageCollector) : Nat :=
  gc.allocations.length

/-- Word addresses visited by the root-scan loop of `gc_collect`
(`for (void** p = stack_top; p < stack_bottom; p++)`): the words at
`stack_top + k * ptrSize` while below `stack_bottom`; empty when
`stack_top` is not strictly below `stack_bottom`. -/
def rootAddrs (stack_top stack_bottom : Nat) : List Nat :=
  (List.range ((stack_bottom - stack_top + ptrSize - 1) / ptrSize)).map
    (fun k => stack_top + k * ptrSize)

/-- Mirrors `gc_collect`: mark from every stack word between the
captured `stack_top` (passed explicitly; the C code reads the current
frame address) and the stored `stack_bottom`, then sweep. -/
def gc_collect (mem : Nat → Nat) (stack_top : Nat) (gc : GarbageCollector) :
    GarbageCollector :=
  let marked := (rootAddrs stack_top gc.stack_bottom).foldl
    (fun st p => gcMarkFull mem st (mem p)) gc.allocations
  { gc with allocations := (gc_sweep marked).1 }

/-- Base-and-size view of the registry: the data the conservative scan
consults (mark flags and destructors play no role in reachability). -/
def blocksProj (l : List Allocation) : List (Nat × Nat) :=
  l.map (fun a => (a.ptr, a.size))

/-- The word values read from the root region. -/
def rootVals (mem : Nat → Nat) (stack_top stack_bottom : Nat) : List Nat :=
  (rootAddrs stack_top stack_bottom).map mem

/-- Declarative conservative reachability of a block base address: some
root word equals it, or some scanned word of a reachable block equals it. -/
inductive Reach (mem : Nat → Nat) (blocks : List (Nat × Nat)) (roots : List Nat) :
    Nat → Prop where
  | root : ∀ v, v ∈ roots → (∃ s, (v, s) ∈ blocks) → Reach mem blocks roots v
  | step : ∀ p s off v, Reach mem blocks roots p → (p, s) ∈ blocks →
      off ∈ scanOffsets s → mem (p + off) = v → (∃ s2, (v, s2) ∈ blocks) →
      Reach mem blocks roots v

example : scanOffsets 0 = [] := by decide
example : scanOffsets 4 = [0] := by decide
example : scanOffsets 8 = [0] := by decide
example : scanOffsets 12 = [0, 8] := by decide
example : scanOffsets 16 = [0, 8] := by decide
example : rootAddrs 100 100 = [] := by decide
example : rootAddrs 104 100 = [] := by decide
example : rootAddrs 100 116 = [100, 108] := by decide

/-! ## Basic sweep lemmas -/

theorem gc_sweep_survivors_unmarked (l : List Allocation) :
    ∀ a ∈ (gc_sweep l).1, a.marked = false := by
  induction l with
  | nil => intro a ha; simp [gc_sweep] at ha
  | cons e rest ih =>
    intro a ha
    by_cases he : e.marked = false
    · simp only [gc_sweep, he, if_true] at ha
      exact ih a ha
    · simp only [gc_sweep, he, if_false] at ha
      rcases List.mem_cons.mp ha with h1 | h1
      · rw [h1]
      · exact ih a h1

theorem gc_sweep_all_unmarked_nil (l : List Allocation)
    (h : ∀ a ∈ l, a.marked = false) : (gc_sweep l).1 = [] := by
  induction l with
  | nil => simp [gc_sweep]
  | cons e rest ih =>
    have he : e.marked = false := h e (List.mem_cons_self e rest)
    simp only [gc_sweep, he, if_true]
    exact ih (fun a ha => h a (List.mem_cons_of_mem e ha))

/-! ## Allocation: shared characterization of `gc_malloc` -/

theorem gc_malloc_spec (gc : GarbageCollector) (metaOk : Bool)
    (blockPtr : Option Nat) (size : Nat) (dtor : Option Nat) :
    (gc_malloc gc metaOk blockPtr size dtor = none ↔ metaOk = false ∨ blockPtr = none) ∧
    (∀ gc2 p, gc_malloc gc metaOk blockPtr size dtor = some (gc2, p) →
      blockPtr = some p ∧
      gc2.allocations =
        { ptr := p, size := size, marked := false, dtor := dtor } :: gc.allocations ∧
      gc2.stack_bottom = gc.stack_bottom) := by
  cases metaOk with
  | false => simp [gc_malloc]
  | true =>
    cases blockPtr with
    | none => simp [gc_malloc]
    | some q =>
      constructor
      · simp [gc_malloc, add_allocation]
      · intro gc2 p h
        have h' : some (add_allocation gc
            { ptr := q, size := size, marked := false, dtor := dtor }, q) = some (gc2, p) := h
        simp only [Option.some.injEq, Prod.mk.injEq] at h'
        obtain ⟨h1, h2⟩ := h'
        subst h2
        subst h1
        exact ⟨rfl, rfl, rfl⟩

/-! ## Claims C7, C8, C10 (allocation and initialization) -/

/-- C7: `gc_malloc` either aborts the process (modelled by `none`,
exactly when the underlying provider fails on the bookkeeping entry or
the block itself — the two `assert`s) or returns the freshly registered
block's valid handle; there is no recoverable-error outcome. -/
theorem malloc_aborts_or_registers (gc : GarbageCollector) (metaOk : Bool)
    (blockPtr : Option Nat) (size : Nat) (dtor : Option Nat) :
    (gc_malloc gc metaOk blockPtr size dtor = none ↔ metaOk = false ∨ blockPtr = none) ∧
    (∀ gc2 p, gc_malloc gc metaOk blockPtr size dtor = some (gc2, p) →
      blockPtr = some p ∧
      gc2.allocations =
        { ptr := p, size := size, marked := false, dtor := dtor } :: gc.allocations ∧
      gc2.stack_bottom = gc.stack_bottom) :=
  gc_malloc_spec gc metaOk blockPtr size dtor

theorem malloc_aborts_or_registers_witness :
    (some 7 : Option Nat) = some 7 ∧
    (GarbageCollector.mk [Allocation.mk 7 16 false (some 1)] 3).allocations =
      Allocation.mk 7 16 false (some 1) :: [] ∧
    (GarbageCollector.mk [Allocation.mk 7 16 false (some 1)] 3).stack_bottom =
      (GarbageCollector.mk [] 3).stack_bottom :=
  (malloc_aborts_or_registers (GarbageCollector.mk [] 3) true (some 7) 16 (some 1)).2
    (GarbageCollector.mk [Allocation.mk 7 16 false (some 1)] 3) 7 rfl

/-- C8: a successful `gc_malloc` adds exactly one entry (the count grows
by one) and leaves every previously tracked entry in the registry with
all of its fields (`ptr`, `size`, `marked`, `dtor`) unchanged: the old
list is exactly the tail of the new one. -/
theorem malloc_frame_effect (gc : GarbageCollector) (metaOk : Bool)
    (blockPtr : Option Nat) (size : Nat) (dtor : Option Nat)
    (gc2 : GarbageCollector) (p : Nat)
    (h : gc_malloc gc metaOk blockPtr size dtor = some (gc2, p)) :
    gc_count_allocations gc2 = gc_count_allocations gc + 1 ∧
    gc2.allocations.tail = gc.allocations ∧
    (∀ a ∈ gc.allocations, a ∈ gc2.allocations) ∧
    gc2.stack_bottom = gc.stack_bottom := by
  have hreg := (gc_malloc_spec gc metaOk blockPtr size dtor).2 gc2 p h
  rcases hreg with ⟨-, h2, h3⟩
  refine ⟨?_, ?_, ?_, h3⟩
  · simp [gc_count_allocations, h2]
  · simp [h2]
  · intro a ha
    rw [h2]
    exact List.mem_cons_of_mem _ ha

theorem malloc_frame_effect_witness :
    gc_count_allocations (GarbageCollector.mk
        [Allocation.mk 7 16 false none, Allocation.mk 5 8 false none] 3) =
      gc_count_allocations (GarbageCollector.mk [Allocation.mk 5 8 false none] 3) + 1 ∧
    (GarbageCollector.mk
        [Allocation.mk 7 16 false none, Allocation.mk 5 8 false none] 3).allocations.tail =
      (GarbageCollector.mk [Allocation.mk 5 8 false none] 3).allocations ∧
    (∀ a ∈ (GarbageCollector.mk [Allocation.mk 5 8 false none] 3).allocations,
      a ∈ (GarbageCollector.mk
        [Allocation.mk 7 16 false none, Allocation.mk 5 8 false none] 3).allocations) ∧
    (GarbageCollector.mk
        [Allocation.mk 7 16 false none, Allocation.mk 5 8 false none] 3).stack_bottom =
      (GarbageCollector.mk [Allocation.mk 5 8 false none] 3).stack_bottom :=
  malloc_frame_effect (GarbageCollector.mk [Allocation.mk 5 8 false none] 3)
    true (some 7) 16 none _ 7 rfl

/-- C10: `gc_init` unconditionally resets the registry to empty (count
zero) and records the given stack bottom; whatever blocks were tracked
before are abandoned: the empty event trace shows no destructor ran and
no memory was released. -/
theorem init_resets_and_abandons (gc : GarbageCollector) (sb : Nat) :
    (gc_init gc sb).1.allocations = [] ∧
    gc_count_allocations (gc_init gc sb).1 = 0 ∧
    (gc_init gc sb).1.stack_bottom = sb ∧
    (gc_init gc sb).2 = [] :=
  ⟨rfl, rfl, rfl, rfl⟩

/-! ## Unfolding lemmas for the mark walk -/

theorem gcMarkGo_nil (mem : Nat → Nat)
    (g : List Allocation → Nat → List Allocation) (v : Nat) (st : List Allocation) :
    gcMarkGo mem g v [] st = st := rfl

theorem gcMarkGo_cons_none (mem : Nat → Nat)
    (g : List Allocation → Nat → List Allocation) (v i : Nat) (rest : List Nat)
    (st : List Allocation) (hg : st.get? i = none) :
    gcMarkGo mem g v (i :: rest) st = gcMarkGo mem g v rest st := by
  rw [gcMarkGo, hg]

theorem gcMarkGo_cons_some (mem : Nat → Nat)
    (g : List Allocation → Nat → List Allocation) (v i : Nat) (rest : List Nat)
    (st : List Allocation) (a : Allocation) (hg : st.get? i = some a) :
    gcMarkGo mem g v (i :: rest) st =
      if a.ptr = v ∧ a.marked = false then
        gcMarkGo mem g v rest
          (List.foldl g (st.set i { a with marked := true }) (childVals mem a.ptr a.size))
      else gcMarkGo mem g v rest st := by
  rw [gcMarkGo, hg]

/-! ## Claim C4 (non-base candidate words are ignored) -/

theorem gcMarkGo_no_match (mem : Nat → Nat)
    (g : List Allocation → Nat → List Allocation) (v : Nat) :
    ∀ (idxs : List Nat) (st : List Allocation),
      (∀ a ∈ st, a.ptr ≠ v) → gcMarkGo mem g v idxs st = st := by
  intro idxs
  induction idxs with
  | nil => intro st h; rfl
  | cons i rest ih =>
    intro st h
    cases hg : st.get? i with
    | none => rw [gcMarkGo_cons_none mem g v i rest st hg]; exact ih st h
    | some a =>
      have ha : a ∈ st := List.get?_mem hg
      have hcond : ¬(a.ptr = v ∧ a.marked = false) := fun hc => h a ha hc.1
      rw [gcMarkGo_cons_some mem g v i rest st a hg, if_neg hcond]
      exact ih st h

/-- C4: a candidate word value that equals no tracked block's base
address — in particular an interior pointer, a value strictly inside a
block but not at its start (tracked regions are disjoint in C, so an
interior value is no block's base) — leaves the registry completely
unchanged: `gc_mark` marks a block only on an exact base-address match. -/
theorem mark_ignores_non_base_words (mem : Nat → Nat) (st : List Allocation)
    (v : Nat) (h : ∀ a ∈ st, a.ptr ≠ v) :
    ∀ fuel, gc_mark mem fuel st v = st := by
  intro fuel
  cases fuel with
  | zero => rfl
  | succ f => exact gcMarkGo_no_match mem _ v (List.range st.length) st h

theorem mark_ignores_non_base_words_witness :
    gc_mark (fun _ => 0) 5 [Allocation.mk 100 8 false none] 104 =
      [Allocation.mk 100 8 false none] :=
  mark_ignores_non_base_words (fun _ => 0) [Allocation.mk 100 8 false none] 104
    (by decide) 5

/-! ## Claim C5 (the scan loop actually reads a trailing partial word) -/

/-- C5 fails on the code: the scan loop guard is `p < ptr + size`, not
`p + sizeof(void*) <= ptr + size`, so a word whose start offset lies
inside the block is read even when it extends past the block's end.
Concretely: a block of size 4 (smaller than the 8-byte pointer width)
has its single—partially out-of-bounds—word inspected (`scanOffsets 4 =
[0]`), a block of size 12 has the trailing partial word at offset 8
inspected (`8 + ptrSize > 12`), and a 4-byte block whose (out-of-bounds)
word holds another block's base address causes that block to be marked. -/
theorem mark_reads_trailing_partial_word :
    scanOffsets 4 = [0] ∧ 4 < ptrSize ∧
    scanOffsets 12 = [0, 8] ∧ 12 < 8 + ptrSize ∧
    gc_mark (fun addr => if addr = 100 then 200 else 0) 3
        [Allocation.mk 100 4 false none, Allocation.mk 200 8 false none] 100 =
      [Allocation.mk 100 4 true none, Allocation.mk 200 8 true none] := by
  decide

/-! ## Claim C9 (empty root region when stack_top is not below stack_bottom) -/

/-- C9: if the captured `stack_top` is not strictly below the stored
`stack_bottom`, the root loop scans nothing, marking never runs, and
(starting from the usual all-unmarked registry) the sweep reclaims every
tracked block. -/
theorem empty_root_region_collects_all (mem : Nat → Nat) (stack_top : Nat)
    (gc : GarbageCollector) (hb : gc.stack_bottom ≤ stack_top)
    (hm : ∀ a ∈ gc.allocations, a.marked = false) :
    rootAddrs stack_top gc.stack_bottom = [] ∧
    (gc_collect mem stack_top gc).allocations = [] := by
  have hsub : gc.stack_bottom - stack_top = 0 := Nat.sub_eq_zero_of_le hb
  have hroots : rootAddrs stack_top gc.stack_bottom = [] := by
    unfold rootAddrs
    rw [hsub]
    rfl
  refine ⟨hroots, ?_⟩
  have hcol : (gc_collect mem stack_top gc).allocations
      = (gc_sweep ((rootAddrs stack_top gc.stack_bottom).foldl
          (fun st p => gcMarkFull mem st (mem p)) gc.allocations)).1 := rfl
  rw [hcol, hroots, List.foldl_nil]
  exact gc_sweep_all_unmarked_nil gc.allocations hm

theorem empty_root_region_collects_all_witness :
    rootAddrs 10 (GarbageCollector.mk [Allocation.mk 5 8 false none] 10).stack_bottom = [] ∧
    (gc_collect (fun _ => 5) 10
      (GarbageCollector.mk [Allocation.mk 5 8 false none] 10)).allocations = [] :=
  empty_root_region_collects_all (fun _ => 5) 10
    (GarbageCollector.mk [Allocation.mk 5 8 false none] 10) (by decide) (by decide)

/-! ## Claim C2 (mark flag false at creation and after collect) -/

/-- C2: the entry `gc_malloc` registers carries `marked = false`, and
after any `gc_collect` every surviving entry has `marked = false`
(the sweep demarks survivors). -/
theorem mark_flag_false_at_creation_and_after_collect
    (gc : GarbageCollector) (metaOk : Bool) (blockPtr : Option Nat)
    (size : Nat) (dtor : Option Nat) (mem : Nat → Nat) (stack_top : Nat) :
    (∀ gc2 p, gc_malloc gc metaOk blockPtr size dtor = some (gc2, p) →
      gc2.allocations.head? =
        some { ptr := p, size := size, marked := false, dtor := dtor }) ∧
    (∀ a ∈ (gc_collect mem stack_top gc).allocations, a.marked = false) := by
  constructor
  · intro gc2 p h
    have hreg := (gc_malloc_spec gc metaOk blockPtr size dtor).2 gc2 p h
    rw [hreg.2.1]
    rfl
  · intro a ha
    exact gc_sweep_survivors_unmarked
      ((rootAddrs stack_top gc.stack_bottom).foldl
        (fun st p => gcMarkFull mem st (mem p)) gc.allocations) a ha

theorem mark_flag_false_at_creation_and_after_collect_witness :
    (GarbageCollector.mk [Allocation.mk 5 8 false none] 0).allocations.head?
      = some (Allocation.mk 5 8 false none) ∧
    (Allocation.mk 5 8 false none).marked = false :=
  ⟨(mark_flag_false_at_creation_and_after_collect
      (GarbageCollector.mk [] 0) true (some 5) 8 none (fun _ => 0) 0).1
      (GarbageCollector.mk [Allocation.mk 5 8 false none] 0) 5 rfl,
   (mark_flag_false_at_creation_and_after_collect
      (GarbageCollector.mk [Allocation.mk 5 8 false none] 8) true none 0 none
      (fun _ => 5) 0).2
      (Allocation.mk 5 8 false none) (by decide)⟩

/-! ## Sweep trace lemmas (towards C3) -/

theorem gc_sweep_cons_unmarked (entry : Allocation) (rest : List Allocation)
    (hm : entry.marked = false) :
    gc_sweep (entry :: rest) =
      ((gc_sweep rest).1,
        (match entry.dtor with
          | some d => [SweepEvent.finalize d entry.ptr]
          | none => []) ++ SweepEvent.release entry.ptr :: (gc_sweep rest).2) := by
  rw [gc_sweep, if_pos hm]

theorem gc_sweep_cons_marked (entry : Allocation) (rest : List Allocation)
    (hm : entry.marked = true) :
    gc_sweep (entry :: rest) =
      ({ entry with marked := false } :: (gc_sweep rest).1, (gc_sweep rest).2) := by
  rw [gc_sweep, if_neg (by simp [hm])]

theorem gc_sweep_cons_unmarked_dtor (entry : Allocation) (rest : List Allocation)
    (d : Nat) (hm : entry.marked = false) (hd : entry.dtor = some d) :
    gc_sweep (entry :: rest) =
      ((gc_sweep rest).1,
        SweepEvent.finalize d entry.ptr ::
          SweepEvent.release entry.ptr :: (gc_sweep rest).2) := by
  rw [gc_sweep_cons_unmarked entry rest hm, hd]
  rfl

theorem gc_sweep_cons_unmarked_nodtor (entry : Allocation) (rest : List Allocation)
    (hm : entry.marked = false) (hd : entry.dtor = none) :
    gc_sweep (entry :: rest) =
      ((gc_sweep rest).1, SweepEvent.release entry.ptr :: (gc_sweep rest).2) := by
  rw [gc_sweep_cons_unmarked entry rest hm, hd]
  rfl

/-- Every sweep event originates from an unmarked entry of the registry,
with the matching shape: its release, or the finalize of its destructor. -/
theorem gc_sweep_trace_sources (l : List Allocation) :
    ∀ e ∈ (gc_sweep l).2, ∃ a, a ∈ l ∧ a.marked = false ∧
      (e = SweepEvent.release a.ptr ∨
        ∃ d, a.dtor = some d ∧ e = SweepEvent.finalize d a.ptr) := by
  induction l with
  | nil => intro e he; simp [gc_sweep] at he
  | cons entry rest ih =>
    intro e he
    by_cases hm : entry.marked = false
    · cases hd : entry.dtor with
      | some d =>
        rw [gc_sweep_cons_unmarked_dtor entry rest d hm hd] at he
        rcases List.mem_cons.mp he with h1 | h2
        · exact ⟨entry, List.mem_cons_self _ _, hm, Or.inr ⟨d, hd, h1⟩⟩
        · rcases List.mem_cons.mp h2 with h3 | h4
          · exact ⟨entry, List.mem_cons_self _ _, hm, Or.inl h3⟩
          · obtain ⟨a, ha, h5, h6⟩ := ih e h4
            exact ⟨a, List.mem_cons_of_mem _ ha, h5, h6⟩
      | none =>
        rw [gc_sweep_cons_unmarked_nodtor entry rest hm hd] at he
        rcases List.mem_cons.mp he with h1 | h2
        · exact ⟨entry, List.mem_cons_self _ _, hm, Or.inl h1⟩
        · obtain ⟨a, ha, h5, h6⟩ := ih e h2
          exact ⟨a, List.mem_cons_of_mem _ ha, h5, h6⟩
    · have hm' : entry.marked = true := by revert hm; cases entry.marked <;> simp
      rw [gc_sweep_cons_marked entry rest hm'] at he
      obtain ⟨a, ha, h5, h6⟩ := ih e he
      exact ⟨a, List.mem_cons_of_mem _ ha, h5, h6⟩

/-- Every sweep survivor is a marked entry with its flag cleared. -/
theorem gc_sweep_survivors_from (l : List Allocation) :
    ∀ b ∈ (gc_sweep l).1, ∃ a, a ∈ l ∧ a.marked = true ∧
      b = { a with marked := false } := by
  induction l with
  | nil => intro b hb; simp [gc_sweep] at hb
  | cons entry rest ih =>
    intro b hb
    by_cases hm : entry.marked = false
    · rw [gc_sweep_cons_unmarked entry rest hm] at hb
      obtain ⟨a, ha, h1, h2⟩ := ih b hb
      exact ⟨a, List.mem_cons_of_mem _ ha, h1, h2⟩
    · have hm' : entry.marked = true := by revert hm; cases entry.marked <;> simp
      rw [gc_sweep_cons_marked entry rest hm'] at hb
      rcases List.mem_cons.mp hb with h1 | h1
      · exact ⟨entry, List.mem_cons_self _ _, hm', h1⟩
      · obtain ⟨a, ha, h2, h3⟩ := ih b h1
        exact ⟨a, List.mem_cons_of_mem _ ha, h2, h3⟩

/-- Every marked entry survives the sweep, with its flag cleared. -/
theorem gc_sweep_retains_marked (l : List Allocation) :
    ∀ a ∈ l, a.marked = true → { a with marked := false } ∈ (gc_sweep l).1 := by
  induction l with
  | nil => intro a ha; simp at ha
  | cons entry rest ih =>
    intro a ha hm
    rcases List.mem_cons.mp ha with h1 | h1
    · subst h1
      rw [gc_sweep_cons_marked a rest hm]
      exact List.mem_cons_self _ _
    · by_cases he : entry.marked = false
      · rw [gc_sweep_cons_unmarked entry rest he]
        exact ih a h1 hm
      · have he' : entry.marked = true := by revert he; cases entry.marked <;> simp
        rw [gc_sweep_cons_marked entry rest he']
        exact List.mem_cons_of_mem _ (ih a h1 hm)

/-- Distinct entries of a pointer-Nodup registry have distinct bases. -/
theorem nodup_map_ptr_inj {l : List Allocation}
    (hnd : (l.map (fun a => a.ptr)).Nodup) :
    ∀ a ∈ l, ∀ b ∈ l, a.ptr = b.ptr → a = b := by
  induction l with
  | nil => intro a ha; simp at ha
  | cons e rest ih =>
    rw [List.map_cons, List.nodup_cons] at hnd
    intro a ha b hb hab
    rcases List.mem_cons.mp ha with h1 | h1 <;> rcases List.mem_cons.mp hb with h2 | h2
    · rw [h1, h2]
    · exfalso
      apply hnd.1
      rw [← h1, hab]
      exact List.mem_map_of_mem (fun x => x.ptr) h2
    · exfalso
      apply hnd.1
      rw [← h2, ← hab]
      exact List.mem_map_of_mem (fun x => x.ptr) h1
    · exact ih hnd.2 a h1 b h2 hab

/-- No sweep event mentions a pointer that is not some entry's base. -/
theorem gc_sweep_trace_no_foreign (l : List Allocation) (p : Nat)
    (h : ∀ a ∈ l, a.ptr ≠ p) :
    (∀ d, SweepEvent.finalize d p ∉ (gc_sweep l).2) ∧
      SweepEvent.release p ∉ (gc_sweep l).2 := by
  constructor
  · intro d hmem
    obtain ⟨a, ha, hm, hsh⟩ := gc_sweep_trace_sources l _ hmem
    rcases hsh with h1 | ⟨d2, hd2, h1⟩
    · exact SweepEvent.noConfusion h1
    · injection h1 with e1 e2
      exact h a ha e2.symm
  · intro hmem
    obtain ⟨a, ha, hm, hsh⟩ := gc_sweep_trace_sources l _ hmem
    rcases hsh with h1 | ⟨d2, hd2, h1⟩
    · injection h1 with e1
      exact h a ha e1.symm
    · exact SweepEvent.noConfusion h1

theorem gc_sweep_count_release (l : List Allocation)
    (hnd : (l.map (fun a => a.ptr)).Nodup) :
    ∀ a ∈ l, a.marked = false →
      (gc_sweep l).2.count (SweepEvent.release a.ptr) = 1 := by
  induction l with
  | nil => intro a ha; simp at ha
  | cons entry rest ih =>
    rw [List.map_cons, List.nodup_cons] at hnd
    intro a ha hm
    have hforeign : ∀ q ∈ rest, q.ptr ≠ entry.ptr := by
      intro q hq hqe
      apply hnd.1
      rw [← hqe]
      exact List.mem_map_of_mem (fun x => x.ptr) hq
    rcases List.mem_cons.mp ha with h1 | h1
    · subst h1
      have hzero : (gc_sweep rest).2.count (SweepEvent.release a.ptr) = 0 :=
        List.count_eq_zero.mpr (gc_sweep_trace_no_foreign rest a.ptr hforeign).2
      cases hd : a.dtor with
      | some d =>
        rw [gc_sweep_cons_unmarked_dtor a rest d hm hd]
        simp [List.count_cons, hzero]
      | none =>
        rw [gc_sweep_cons_unmarked_nodtor a rest hm hd]
        simp [List.count_cons, hzero]
    · have hne : a.ptr ≠ entry.ptr := hforeign a h1
      have hrec := ih hnd.2 a h1 hm
      by_cases hme : entry.marked = false
      · cases hd : entry.dtor with
        | some d =>
          rw [gc_sweep_cons_unmarked_dtor entry rest d hme hd]
          simp [List.count_cons, hrec, hne]
        | none =>
          rw [gc_sweep_cons_unmarked_nodtor entry rest hme hd]
          simp [List.count_cons, hrec, hne]
      · have hme2 : entry.marked = true := by revert hme; cases entry.marked <;> simp
        rw [gc_sweep_cons_marked entry rest hme2]
        exact hrec

theorem gc_sweep_count_finalize (l : List Allocation)
    (hnd : (l.map (fun a => a.ptr)).Nodup) :
    ∀ a ∈ l, a.marked = false → ∀ d, a.dtor = some d →
      (gc_sweep l).2.count (SweepEvent.finalize d a.ptr) = 1 := by
  induction l with
  | nil => intro a ha; simp at ha
  | cons entry rest ih =>
    rw [List.map_cons, List.nodup_cons] at hnd
    intro a ha hm d hd
    have hforeign : ∀ q ∈ rest, q.ptr ≠ entry.ptr := by
      intro q hq hqe
      apply hnd.1
      rw [← hqe]
      exact List.mem_map_of_mem (fun x => x.ptr) hq
    rcases List.mem_cons.mp ha with h1 | h1
    · subst h1
      have hzero : (gc_sweep rest).2.count (SweepEvent.finalize d a.ptr) = 0 :=
        List.count_eq_zero.mpr ((gc_sweep_trace_no_foreign rest a.ptr hforeign).1 d)
      rw [gc_sweep_cons_unmarked_dtor a rest d hm hd]
      simp [List.count_cons, hzero]
    · have hne : a.ptr ≠ entry.ptr := hforeign a h1
      have hrec := ih hnd.2 a h1 hm d hd
      by_cases hme : entry.marked = false
      · cases hdd : entry.dtor with
        | some d2 =>
          rw [gc_sweep_cons_unmarked_dtor entry rest d2 hme hdd]
          simp [List.count_cons, hrec, hne]
        | none =>
          rw [gc_sweep_cons_unmarked_nodtor entry rest hme hdd]
          simp [List.count_cons, hrec, hne]
      · have hme2 : entry.marked = true := by revert hme; cases entry.marked <;> simp
        rw [gc_sweep_cons_marked entry rest hme2]
        exact hrec

theorem gc_sweep_finalize_before_release (l : List Allocation) :
    ∀ a ∈ l, a.marked = false → ∀ d, a.dtor = some d →
      ∃ pre post, (gc_sweep l).2 =
        pre ++ SweepEvent.finalize d a.ptr :: SweepEvent.release a.ptr :: post := by
  induction l with
  | nil => intro a ha; simp at ha
  | cons entry rest ih =>
    intro a ha hm d hd
    rcases List.mem_cons.mp ha with h1 | h1
    · subst h1
      rw [gc_sweep_cons_unmarked_dtor a rest d hm hd]
      exact ⟨[], (gc_sweep rest).2, rfl⟩
    · obtain ⟨pre, post, hpp⟩ := ih a h1 hm d hd
      by_cases hme : entry.marked = false
      · cases hdd : entry.dtor with
        | some d2 =>
          rw [gc_sweep_cons_unmarked_dtor entry rest d2 hme hdd, hpp]
          exact ⟨SweepEvent.finalize d2 entry.ptr :: SweepEvent.release entry.ptr :: pre,
            post, by simp⟩
        | none =>
          rw [gc_sweep_cons_unmarked_nodtor entry rest hme hdd, hpp]
          exact ⟨SweepEvent.release entry.ptr :: pre, post, by simp⟩
      · have hme2 : entry.marked = true := by revert hme; cases entry.marked <;> simp
        rw [gc_sweep_cons_marked entry rest hme2]
        exact ⟨pre, post, hpp⟩

/-! ## Claim C3 (the sweep pass protocol) -/

/-- C3: over one sweep of a registry with distinct base addresses, every
unmarked entry has its destructor (when present) invoked exactly once,
immediately before the single release of its memory, and its base
disappears from the registry; every marked entry is retained with its
flag cleared and is neither finalized nor released; an unmarked entry
without destructor is released once and never finalized. -/
theorem sweep_exactly_once_protocol (l : List Allocation)
    (hnd : (l.map (fun a => a.ptr)).Nodup) :
    (∀ a ∈ l, a.marked = true →
      { a with marked := false } ∈ (gc_sweep l).1 ∧
      SweepEvent.release a.ptr ∉ (gc_sweep l).2 ∧
      ∀ d, SweepEvent.finalize d a.ptr ∉ (gc_sweep l).2) ∧
    (∀ a ∈ l, a.marked = false →
      (∀ b ∈ (gc_sweep l).1, b.ptr ≠ a.ptr) ∧
      (gc_sweep l).2.count (SweepEvent.release a.ptr) = 1 ∧
      (∀ d, a.dtor = some d →
        (gc_sweep l).2.count (SweepEvent.finalize d a.ptr) = 1 ∧
        ∃ pre post, (gc_sweep l).2 =
          pre ++ SweepEvent.finalize d a.ptr :: SweepEvent.release a.ptr :: post) ∧
      (a.dtor = none → ∀ d, SweepEvent.finalize d a.ptr ∉ (gc_sweep l).2)) := by
  constructor
  · intro a ha hm
    refine ⟨gc_sweep_retains_marked l a ha hm, ?_, ?_⟩
    · intro hmem
      obtain ⟨b, hb, hbm, hsh⟩ := gc_sweep_trace_sources l _ hmem
      rcases hsh with h1 | ⟨d2, hd2, h1⟩
      · injection h1 with e1
        have hab : a = b := nodup_map_ptr_inj hnd a ha b hb e1
        rw [hab] at hm
        rw [hm] at hbm
        exact Bool.noConfusion hbm
      · exact SweepEvent.noConfusion h1
    · intro d hmem
      obtain ⟨b, hb, hbm, hsh⟩ := gc_sweep_trace_sources l _ hmem
      rcases hsh with h1 | ⟨d2, hd2, h1⟩
      · exact SweepEvent.noConfusion h1
      · injection h1 with e1 e2
        have hab : a = b := nodup_map_ptr_inj hnd a ha b hb e2
        rw [hab] at hm
        rw [hm] at hbm
        exact Bool.noConfusion hbm
  · intro a ha hm
    refine ⟨?_, gc_sweep_count_release l hnd a ha hm, ?_, ?_⟩
    · intro b hb hba
      obtain ⟨c, hc, hcm, hcb⟩ := gc_sweep_survivors_from l b hb
      have hcp : c.ptr = a.ptr := by rw [← hba, hcb]
      have hca : c = a := nodup_map_ptr_inj hnd c hc a ha hcp
      rw [hca] at hcm
      rw [hm] at hcm
      exact Bool.noConfusion hcm
    · intro d hd
      exact ⟨gc_sweep_count_finalize l hnd a ha hm d hd,
        gc_sweep_finalize_before_release l a ha hm d hd⟩
    · intro hd d hmem
      obtain ⟨b, hb, hbm, hsh⟩ := gc_sweep_trace_sources l _ hmem
      rcases hsh with h1 | ⟨d2, hd2, h1⟩
      · exact SweepEvent.noConfusion h1
      · injection h1 with e1 e2
        have hab : a = b := nodup_map_ptr_inj hnd a ha b hb e2
        rw [← hab] at hd2
        rw [hd] at hd2
        exact Option.noConfusion hd2

theorem sweep_exactly_once_protocol_witness :
    Allocation.mk 10 8 false none ∈
      (gc_sweep [Allocation.mk 10 8 true none,
        Allocation.mk 20 8 false (some 3)]).1 ∧
    (gc_sweep [Allocation.mk 10 8 true none,
        Allocation.mk 20 8 false (some 3)]).2.count (SweepEvent.release 20) = 1 :=
  ⟨((sweep_exactly_once_protocol
      [Allocation.mk 10 8 true none, Allocation.mk 20 8 false (some 3)]
      (by decide)).1 (Allocation.mk 10 8 true none) (by decide) rfl).1,
   ((sweep_exactly_once_protocol
      [Allocation.mk 10 8 true none, Allocation.mk 20 8 false (some 3)]
      (by decide)).2 (Allocation.mk 20 8 false (some 3)) (by decide) rfl).2.1⟩

/-! ## The mark phase: flag evolution -/

/-- Marking never moves, resizes or re-owns an entry; it can only turn
the mark flag on. -/
def sameCore (a b : Allocation) : Prop :=
  a.ptr = b.ptr ∧ a.size = b.size ∧ a.dtor = b.dtor ∧
    (a.marked = true → b.marked = true)

/-- Positionwise `sameCore` between a state and a later state of the
mark phase. -/
def MarkExtends (l l2 : List Allocation) : Prop :=
  List.Forall₂ sameCore l l2

/-- The number of unmarked entries: the mark recursion's termination
measure. -/
def unmarkedCount (l : List Allocation) : Nat :=
  l.countP (fun a => !a.marked)

theorem sameCore_refl (a : Allocation) : sameCore a a :=
  ⟨rfl, rfl, rfl, id⟩

theorem sameCore_trans {a b c : Allocation} (h1 : sameCore a b)
    (h2 : sameCore b c) : sameCore a c :=
  ⟨h1.1.trans h2.1, h1.2.1.trans h2.2.1, h1.2.2.1.trans h2.2.2.1,
    fun h => h2.2.2.2 (h1.2.2.2 h)⟩

theorem markExtends_refl (l : List Allocation) : MarkExtends l l := by
  induction l with
  | nil => exact List.Forall₂.nil
  | cons a rest ih => exact List.Forall₂.cons (sameCore_refl a) ih

theorem markExtends_trans {l1 l2 l3 : List Allocation}
    (h12 : MarkExtends l1 l2) (h23 : MarkExtends l2 l3) : MarkExtends l1 l3 := by
  induction h12 generalizing l3 with
  | nil => cases h23; exact List.Forall₂.nil
  | cons hab hrest ih =>
    cases h23 with
    | cons hbc hrest2 => exact List.Forall₂.cons (sameCore_trans hab hbc) (ih hrest2)

theorem markExtends_length {l l2 : List Allocation} (h : MarkExtends l l2) :
    l.length = l2.length :=
  List.Forall₂.length_eq h

theorem markExtends_get?_some {l l2 : List Allocation} (h : MarkExtends l l2) :
    ∀ {i : Nat} {a : Allocation}, l.get? i = some a →
      ∃ b, l2.get? i = some b ∧ sameCore a b := by
  induction h with
  | nil => intro i a hg; simp at hg
  | cons hab hrest ih =>
    intro i a hg
    cases i with
    | zero =>
      injection hg with he
      subst he
      exact ⟨_, rfl, hab⟩
    | succ n =>
      obtain ⟨b, hb, hsc⟩ := ih hg
      exact ⟨b, hb, hsc⟩

theorem markExtends_mem_rev {l l2 : List Allocation} (h : MarkExtends l l2) :
    ∀ b ∈ l2, ∃ a ∈ l, sameCore a b := by
  induction h with
  | nil => intro b hb; simp at hb
  | cons hab hrest ih =>
    intro b hb
    rcases List.mem_cons.mp hb with h1 | h1
    · subst h1
      exact ⟨_, List.mem_cons_self _ _, hab⟩
    · obtain ⟨a, ha, hs⟩ := ih b h1
      exact ⟨a, List.mem_cons_of_mem _ ha, hs⟩

theorem markExtends_blocksProj {l l2 : List Allocation} (h : MarkExtends l l2) :
    blocksProj l = blocksProj l2 := by
  induction h with
  | nil => rfl
  | cons hab hrest ih =>
    simp only [blocksProj, List.map_cons, List.cons.injEq]
    exact ⟨by rw [hab.1, hab.2.1], by simpa [blocksProj] using ih⟩

theorem unmarkedCount_le {l l2 : List Allocation} (h : MarkExtends l l2) :
    unmarkedCount l2 ≤ unmarkedCount l := by
  induction h with
  | nil => exact Nat.le_refl 0
  | @cons a b l1 l2 hab hrest ih =>
    simp only [unmarkedCount, List.countP_cons] at ih ⊢
    cases hma : a.marked with
    | true =>
      have hmb : b.marked = true := hab.2.2.2 hma
      simp only [hma, hmb, Bool.not_true]
      simpa using ih
    | false =>
      cases hmb : b.marked <;> simp [hma, hmb] <;> omega

theorem markExtends_set_marked (l : List Allocation) (i : Nat) (a : Allocation)
    (hg : l.get? i = some a) :
    MarkExtends l (l.set i { a with marked := true }) := by
  induction l generalizing i with
  | nil => exact List.Forall₂.nil
  | cons e rest ih =>
    cases i with
    | zero =>
      injection hg with he
      subst he
      exact List.Forall₂.cons ⟨rfl, rfl, rfl, fun _ => rfl⟩ (markExtends_refl rest)
    | succ n =>
      exact List.Forall₂.cons (sameCore_refl e) (ih n hg)

theorem unmarkedCount_set_marked (l : List Allocation) (i : Nat) (a : Allocation)
    (hg : l.get? i = some a) (hm : a.marked = false) :
    unmarkedCount (l.set i { a with marked := true }) + 1 = unmarkedCount l := by
  induction l generalizing i with
  | nil => simp at hg
  | cons e rest ih =>
    cases i with
    | zero =>
      injection hg with he
      subst he
      simp [unmarkedCount, List.countP_cons, hm]
    | succ n =>
      have := ih n hg
      simp only [List.set, unmarkedCount, List.countP_cons] at this ⊢
      omega

theorem unmarkedCount_pos (l : List Allocation) (i : Nat) (a : Allocation)
    (hg : l.get? i = some a) (hm : a.marked = false) :
    1 ≤ unmarkedCount l := by
  have ha : a ∈ l := List.get?_mem hg
  have : 0 < l.countP (fun x => !x.marked) :=
    List.countP_pos_iff.mpr ⟨a, ha, by rw [hm]; rfl⟩
  exact this

theorem get?_set_self (l : List Allocation) (i : Nat) (x a : Allocation)
    (hg : l.get? i = some a) : (l.set i x).get? i = some x := by
  induction l generalizing i with
  | nil => simp at hg
  | cons e rest ih =>
    cases i with
    | zero => rfl
    | succ n => exact ih n hg

theorem foldl_markExtends (g : List Allocation → Nat → List Allocation)
    (hg : ∀ s c, MarkExtends s (g s c)) :
    ∀ (cs : List Nat) (s : List Allocation), MarkExtends s (List.foldl g s cs) := by
  intro cs
  induction cs with
  | nil => intro s; exact markExtends_refl s
  | cons c cs2 ih =>
    intro s
    rw [List.foldl_cons]
    exact markExtends_trans (hg s c) (ih (g s c))

theorem gcMarkGo_extends (mem : Nat → Nat)
    (g : List Allocation → Nat → List Allocation)
    (hg : ∀ s c, MarkExtends s (g s c)) (v : Nat) :
    ∀ (idxs : List Nat) (st : List Allocation),
      MarkExtends st (gcMarkGo mem g v idxs st) := by
  intro idxs
  induction idxs with
  | nil => intro st; exact markExtends_refl st
  | cons i rest ih =>
    intro st
    cases hgi : st.get? i with
    | none =>
      rw [gcMarkGo_cons_none mem g v i rest st hgi]
      exact ih st
    | some a =>
      rw [gcMarkGo_cons_some mem g v i rest st a hgi]
      by_cases hc : a.ptr = v ∧ a.marked = false
      · rw [if_pos hc]
        exact markExtends_trans
          (markExtends_trans (markExtends_set_marked st i a hgi)
            (foldl_markExtends g hg (childVals mem a.ptr a.size)
              (st.set i { a with marked := true })))
          (ih _)
      · rw [if_neg hc]
        exact ih st

theorem gc_mark_extends (mem : Nat → Nat) :
    ∀ (fuel : Nat) (st : List Allocation) (v : Nat),
      MarkExtends st (gc_mark mem fuel st v) := by
  intro fuel
  induction fuel with
  | zero => intro st v; exact markExtends_refl st
  | succ f ih =>
    intro st v
    exact gcMarkGo_extends mem (fun s c => gc_mark mem f s c)
      (fun s c => ih s c) v (List.range st.length) st

theorem gc_mark_length (mem : Nat → Nat) (fuel : Nat) (st : List Allocation)
    (v : Nat) : (gc_mark mem fuel st v).length = st.length :=
  (markExtends_length (gc_mark_extends mem fuel st v)).symm

/-! ## The mark phase: closure invariant -/

/-- Every child word of a marked entry either still awaits processing
(it lies in `V`) or already points only to marked entries. -/
def ClosedExcept (mem : Nat → Nat) (V : List Nat) (l : List Allocation) : Prop :=
  ∀ a ∈ l, a.marked = true → ∀ c ∈ childVals mem a.ptr a.size,
    c ∈ V ∨ ∀ b ∈ l, b.ptr = c → b.marked = true

theorem closedExcept_mono (mem : Nat → Nat) {V V2 : List Nat} {l : List Allocation}
    (hV : ∀ x ∈ V, x ∈ V2) (h : ClosedExcept mem V l) : ClosedExcept mem V2 l := by
  intro a ha hm c hc
  rcases h a ha hm c hc with h1 | h1
  · exact Or.inl (hV c h1)
  · exact Or.inr h1

theorem foldl_mark_closed_aux (mem : Nat → Nat) (f : Nat)
    (IH : ∀ (st : List Allocation) (v : Nat) (V : List Nat),
      unmarkedCount st < f → ClosedExcept mem (v :: V) st →
      ClosedExcept mem V (gc_mark mem f st v) ∧
      ∀ a ∈ gc_mark mem f st v, a.ptr = v → a.marked = true) :
    ∀ (cs : List Nat) (st : List Allocation) (V : List Nat),
      unmarkedCount st < f → ClosedExcept mem (cs ++ V) st →
      ClosedExcept mem V (List.foldl (fun s c => gc_mark mem f s c) st cs) ∧
      unmarkedCount (List.foldl (fun s c => gc_mark mem f s c) st cs) ≤
        unmarkedCount st := by
  intro cs
  induction cs with
  | nil =>
    intro st V h1 h2
    exact ⟨h2, Nat.le_refl _⟩
  | cons c cs2 ih =>
    intro st V h1 h2
    rw [List.foldl_cons]
    have hstep := IH st c (cs2 ++ V) h1 h2
    have hle : unmarkedCount (gc_mark mem f st c) ≤ unmarkedCount st :=
      unmarkedCount_le (gc_mark_extends mem f st c)
    have hrec := ih (gc_mark mem f st c) V (Nat.lt_of_le_of_lt hle h1) hstep.1
    exact ⟨hrec.1, Nat.le_trans hrec.2 hle⟩

theorem gcMarkGo_closed_aux (mem : Nat → Nat) (f : Nat)
    (IH : ∀ (st : List Allocation) (v : Nat) (V : List Nat),
      unmarkedCount st < f → ClosedExcept mem (v :: V) st →
      ClosedExcept mem V (gc_mark mem f st v) ∧
      ∀ a ∈ gc_mark mem f st v, a.ptr = v → a.marked = true)
    (v : Nat) (V : List Nat) :
    ∀ (idxs : List Nat) (st : List Allocation),
      unmarkedCount st ≤ f → ClosedExcept mem (v :: V) st →
      ClosedExcept mem (v :: V)
        (gcMarkGo mem (fun s c => gc_mark mem f s c) v idxs st) ∧
      ∀ i ∈ idxs, ∀ a,
        (gcMarkGo mem (fun s c => gc_mark mem f s c) v idxs st).get? i = some a →
        a.ptr = v → a.marked = true := by
  intro idxs
  induction idxs with
  | nil =>
    intro st hcount hclosed
    exact ⟨hclosed, fun i hi => absurd hi (List.not_mem_nil i)⟩
  | cons i rest ih =>
    intro st hcount hclosed
    cases hgi : st.get? i with
    | none =>
      rw [gcMarkGo_cons_none mem (fun s c => gc_mark mem f s c) v i rest st hgi]
      have hr := ih st hcount hclosed
      refine ⟨hr.1, ?_⟩
      intro j hj a hga hav
      rcases List.mem_cons.mp hj with h1 | h1
      · subst h1
        have hlen := markExtends_length (gcMarkGo_extends mem
          (fun s c => gc_mark mem f s c) (fun s c => gc_mark_extends mem f s c)
          v rest st)
        have hnone : (gcMarkGo mem (fun s c => gc_mark mem f s c) v rest st).get? j
            = none := by
          rw [List.get?_eq_none] at hgi ⊢
          rw [← hlen]
          exact hgi
        rw [hga] at hnone
        exact Option.noConfusion hnone
      · exact hr.2 j h1 a hga hav
    | some a =>
      rw [gcMarkGo_cons_some mem (fun s c => gc_mark mem f s c) v i rest st a hgi]
      by_cases hc : a.ptr = v ∧ a.marked = false
      · rw [if_pos hc]
        have hcnt1 := unmarkedCount_set_marked st i a hgi hc.2
        have hpos := unmarkedCount_pos st i a hgi hc.2
        have hcnt1lt : unmarkedCount (st.set i { a with marked := true }) < f := by
          omega
        have hclosed1 : ClosedExcept mem (childVals mem a.ptr a.size ++ (v :: V))
            (st.set i { a with marked := true }) := by
          intro b hb hbm c hcv
          rcases List.mem_or_eq_of_mem_set hb with hb1 | hb1
          · rcases hclosed b hb1 hbm c hcv with h2 | h2
            · exact Or.inl (List.mem_append_right _ h2)
            · refine Or.inr ?_
              intro b2 hb2 hp2
              rcases List.mem_or_eq_of_mem_set hb2 with hb3 | hb3
              · exact h2 b2 hb3 hp2
              · rw [hb3]
          · subst hb1
            exact Or.inl (List.mem_append_left _ hcv)
        have hfold := foldl_mark_closed_aux mem f IH (childVals mem a.ptr a.size)
          (st.set i { a with marked := true }) (v :: V) hcnt1lt hclosed1
        have hcnt2 : unmarkedCount (List.foldl (fun s c => gc_mark mem f s c)
            (st.set i { a with marked := true }) (childVals mem a.ptr a.size)) ≤ f :=
          Nat.le_trans hfold.2 (Nat.le_of_lt hcnt1lt)
        have hrec := ih _ hcnt2 hfold.1
        refine ⟨hrec.1, ?_⟩
        intro j hj b hgb hbv
        rcases List.mem_cons.mp hj with h1 | h1
        · rw [h1] at hgb
          have hg1 : (st.set i { a with marked := true }).get? i =
              some { a with marked := true } := get?_set_self st i _ a hgi
          have hext2 : MarkExtends (st.set i { a with marked := true })
              (List.foldl (fun s c => gc_mark mem f s c)
                (st.set i { a with marked := true }) (childVals mem a.ptr a.size)) :=
            foldl_markExtends _ (fun s c => gc_mark_extends mem f s c) _ _
          have hext3 : MarkExtends
              (List.foldl (fun s c => gc_mark mem f s c)
                (st.set i { a with marked := true }) (childVals mem a.ptr a.size))
              (gcMarkGo mem (fun s c => gc_mark mem f s c) v rest
                (List.foldl (fun s c => gc_mark mem f s c)
                  (st.set i { a with marked := true })
                  (childVals mem a.ptr a.size))) :=
            gcMarkGo_extends mem (fun s c => gc_mark mem f s c)
              (fun s c => gc_mark_extends mem f s c) v rest _
          obtain ⟨b2, hb2, hsc⟩ :=
            markExtends_get?_some (markExtends_trans hext2 hext3) hg1
          rw [hgb] at hb2
          injection hb2 with hb2e
          subst hb2e
          exact hsc.2.2.2 rfl
        · exact hrec.2 j h1 b hgb hbv
      · rw [if_neg hc]
        have hr := ih st hcount hclosed
        refine ⟨hr.1, ?_⟩
        intro j hj b hgb hbv
        rcases List.mem_cons.mp hj with h1 | h1
        · subst h1
          have hext := gcMarkGo_extends mem (fun s c => gc_mark mem f s c)
            (fun s c => gc_mark_extends mem f s c) v rest st
          obtain ⟨b2, hb2, hsc⟩ := markExtends_get?_some hext hgi
          rw [hgb] at hb2
          injection hb2 with hb2e
          subst hb2e
          have hav : a.ptr = v := hsc.1.trans hbv
          have ham : a.marked = true := by
            cases hma : a.marked with
            | true => rfl
            | false => exact absurd ⟨hav, hma⟩ hc
          exact hsc.2.2.2 ham
        · exact hr.2 j h1 b hgb hbv

/-- Marking from `v` with sufficient fuel: the walked state stays closed
once `v` has been discharged, and every entry whose base is `v` ends up
marked. -/
theorem gc_mark_closed (mem : Nat → Nat) :
    ∀ (fuel : Nat) (st : List Allocation) (v : Nat) (V : List Nat),
      unmarkedCount st < fuel → ClosedExcept mem (v :: V) st →
      ClosedExcept mem V (gc_mark mem fuel st v) ∧
      ∀ a ∈ gc_mark mem fuel st v, a.ptr = v → a.marked = true := by
  intro fuel
  induction fuel with
  | zero => intro st v V h; exact absurd h (Nat.not_lt_zero _)
  | succ f ih =>
    intro st v V hcount hclosed
    have hgo := gcMarkGo_closed_aux mem f ih v V (List.range st.length) st
      (Nat.lt_succ_iff.mp hcount) hclosed
    have hmatch : ∀ a ∈ gc_mark mem (f + 1) st v, a.ptr = v → a.marked = true := by
      intro a ha hav
      obtain ⟨n, hn⟩ := List.mem_iff_get?.mp ha
      have hlt : n < (gc_mark mem (f + 1) st v).length := by
        by_contra hge
        rw [List.get?_eq_none.mpr (Nat.le_of_not_lt hge)] at hn
        exact Option.noConfusion hn
      have hlt2 : n < st.length := by
        rw [gc_mark_length mem (f + 1) st v] at hlt
        exact hlt
      exact hgo.2 n (List.mem_range.mpr hlt2) a hn hav
    refine ⟨?_, hmatch⟩
    intro b hb hbm c hcv
    rcases hgo.1 b hb hbm c hcv with h1 | h1
    · rcases List.mem_cons.mp h1 with h2 | h2
      · subst h2
        exact Or.inr (fun b2 hb2 hp2 => hmatch b2 hb2 hp2)
      · exact Or.inl h2
    · exact Or.inr h1

/-! ## The mark phase: soundness (marked entries satisfy a closed predicate) -/

theorem foldl_mark_sound_aux (mem : Nat → Nat) (blocks : List (Nat × Nat))
    (R : Nat → Prop) (f : Nat)
    (IH : ∀ (st : List Allocation) (v : Nat),
      blocksProj st = blocks → ((∃ s, (v, s) ∈ blocks) → R v) →
      (∀ a ∈ st, a.marked = true → R a.ptr) →
      ∀ a ∈ gc_mark mem f st v, a.marked = true → R a.ptr) :
    ∀ (cs : List Nat) (st : List Allocation),
      blocksProj st = blocks →
      (∀ c ∈ cs, (∃ s2, (c, s2) ∈ blocks) → R c) →
      (∀ a ∈ st, a.marked = true → R a.ptr) →
      ∀ a ∈ List.foldl (fun s c => gc_mark mem f s c) st cs,
        a.marked = true → R a.ptr := by
  intro cs
  induction cs with
  | nil => intro st hbp hcs hsound; exact hsound
  | cons c cs2 ih =>
    intro st hbp hcs hsound
    rw [List.foldl_cons]
    have hstep := IH st c hbp (hcs c (List.mem_cons_self c cs2)) hsound
    have hbp2 : blocksProj (gc_mark mem f st c) = blocks := by
      rw [← markExtends_blocksProj (gc_mark_extends mem f st c)]
      exact hbp
    exact ih (gc_mark mem f st c) hbp2
      (fun x hx => hcs x (List.mem_cons_of_mem c hx)) hstep

theorem gcMarkGo_sound_aux (mem : Nat → Nat) (blocks : List (Nat × Nat))
    (R : Nat → Prop) (f : Nat)
    (hRstep : ∀ p s off, R p → (p, s) ∈ blocks → off ∈ scanOffsets s →
      (∃ s2, (mem (p + off), s2) ∈ blocks) → R (mem (p + off)))
    (IH : ∀ (st : List Allocation) (v : Nat),
      blocksProj st = blocks → ((∃ s, (v, s) ∈ blocks) → R v) →
      (∀ a ∈ st, a.marked = true → R a.ptr) →
      ∀ a ∈ gc_mark mem f st v, a.marked = true → R a.ptr)
    (v : Nat) (hv : (∃ s, (v, s) ∈ blocks) → R v) :
    ∀ (idxs : List Nat) (st : List Allocation),
      blocksProj st = blocks →
      (∀ a ∈ st, a.marked = true → R a.ptr) →
      ∀ a ∈ gcMarkGo mem (fun s c => gc_mark mem f s c) v idxs st,
        a.marked = true → R a.ptr := by
  intro idxs
  induction idxs with
  | nil => intro st hbp hsound; exact hsound
  | cons i rest ih =>
    intro st hbp hsound
    cases hgi : st.get? i with
    | none =>
      rw [gcMarkGo_cons_none mem (fun s c => gc_mark mem f s c) v i rest st hgi]
      exact ih st hbp hsound
    | some a =>
      rw [gcMarkGo_cons_some mem (fun s c => gc_mark mem f s c) v i rest st a hgi]
      by_cases hc : a.ptr = v ∧ a.marked = false
      · rw [if_pos hc]
        have hain : a ∈ st := List.get?_mem hgi
        have habase : (a.ptr, a.size) ∈ blocks := by
          rw [← hbp]
          exact List.mem_map_of_mem (fun x => (x.ptr, x.size)) hain
        have hRa : R a.ptr := by
          rw [hc.1]
          exact hv ⟨a.size, by rw [← hc.1]; exact habase⟩
        have hsound1 : ∀ b ∈ st.set i { a with marked := true },
            b.marked = true → R b.ptr := by
          intro b hb hbm
          rcases List.mem_or_eq_of_mem_set hb with hb1 | hb1
          · exact hsound b hb1 hbm
          · subst hb1
            exact hRa
        have hbp1 : blocksProj (st.set i { a with marked := true }) = blocks := by
          rw [← markExtends_blocksProj (markExtends_set_marked st i a hgi)]
          exact hbp
        have hcs : ∀ c ∈ childVals mem a.ptr a.size,
            (∃ s2, (c, s2) ∈ blocks) → R c := by
          intro c hcv hbase
          obtain ⟨off, hoff, hoffeq⟩ := List.mem_map.mp hcv
          rw [← hoffeq]
          exact hRstep a.ptr a.size off hRa habase hoff (by rw [hoffeq]; exact hbase)
        have hfold := foldl_mark_sound_aux mem blocks R f IH
          (childVals mem a.ptr a.size) (st.set i { a with marked := true })
          hbp1 hcs hsound1
        have hbp2 : blocksProj (List.foldl (fun s c => gc_mark mem f s c)
            (st.set i { a with marked := true }) (childVals mem a.ptr a.size))
            = blocks := by
          rw [← markExtends_blocksProj (foldl_markExtends _
            (fun s c => gc_mark_extends mem f s c) _ _)]
          exact hbp1
        exact ih _ hbp2 hfold
      · rw [if_neg hc]
        exact ih st hbp hsound

theorem gc_mark_sound (mem : Nat → Nat) (blocks : List (Nat × Nat))
    (R : Nat → Prop)
    (hRstep : ∀ p s off, R p → (p, s) ∈ blocks → off ∈ scanOffsets s →
      (∃ s2, (mem (p + off), s2) ∈ blocks) → R (mem (p + off))) :
    ∀ (f : Nat) (st : List Allocation) (v : Nat),
      blocksProj st = blocks → ((∃ s, (v, s) ∈ blocks) → R v) →
      (∀ a ∈ st, a.marked = true → R a.ptr) →
      ∀ a ∈ gc_mark mem f st v, a.marked = true → R a.ptr := by
  intro f
  induction f with
  | zero => intro st v hbp hv hsound; exact hsound
  | succ f ih =>
    intro st v hbp hv hsound
    exact gcMarkGo_sound_aux mem blocks R f hRstep (fun st v => ih st v) v hv
      (List.range st.length) st hbp hsound

/-! ## The root scan fold -/

theorem markRoots_spec (mem : Nat → Nat) :
    ∀ (addrs : List Nat) (st : List Allocation),
      ClosedExcept mem [] st →
      ClosedExcept mem [] (addrs.foldl (fun s p => gcMarkFull mem s (mem p)) st) ∧
      MarkExtends st (addrs.foldl (fun s p => gcMarkFull mem s (mem p)) st) ∧
      ∀ p ∈ addrs, ∀ a ∈ addrs.foldl (fun s p => gcMarkFull mem s (mem p)) st,
        a.ptr = mem p → a.marked = true := by
  intro addrs
  induction addrs with
  | nil =>
    intro st hcl
    exact ⟨hcl, markExtends_refl st, fun p hp => absurd hp (List.not_mem_nil p)⟩
  | cons q qs ih =>
    intro st hcl
    rw [List.foldl_cons]
    have hfuel : unmarkedCount st < st.length + 1 :=
      Nat.lt_succ_of_le (List.countP_le_length _)
    have hcl2 : ClosedExcept mem (mem q :: []) st :=
      closedExcept_mono mem (fun x hx => absurd hx (List.not_mem_nil x)) hcl
    have h1 := gc_mark_closed mem (st.length + 1) st (mem q) [] hfuel hcl2
    have hext1 : MarkExtends st (gcMarkFull mem st (mem q)) :=
      gc_mark_extends mem (st.length + 1) st (mem q)
    have hrec := ih (gcMarkFull mem st (mem q)) h1.1
    refine ⟨hrec.1, markExtends_trans hext1 hrec.2.1, ?_⟩
    intro p hp a ha hap
    rcases List.mem_cons.mp hp with h2 | h2
    · obtain ⟨a1, ha1, hsc⟩ := markExtends_mem_rev hrec.2.1 a ha
      have ha1p : a1.ptr = mem p := hsc.1.trans hap
      rw [h2] at ha1p
      exact hsc.2.2.2 (h1.2 a1 ha1 ha1p)
    · exact hrec.2.2 p h2 a ha hap

theorem markRoots_sound (mem : Nat → Nat) (blocks : List (Nat × Nat))
    (roots : List Nat) :
    ∀ (addrs : List Nat) (st : List Allocation),
      (∀ p ∈ addrs, mem p ∈ roots) →
      blocksProj st = blocks →
      (∀ a ∈ st, a.marked = true → Reach mem blocks roots a.ptr) →
      ∀ a ∈ addrs.foldl (fun s p => gcMarkFull mem s (mem p)) st,
        a.marked = true → Reach mem blocks roots a.ptr := by
  intro addrs
  induction addrs with
  | nil => intro st hroot hbp hsound; exact hsound
  | cons q qs ih =>
    intro st hroot hbp hsound
    rw [List.foldl_cons]
    have hstep := gc_mark_sound mem blocks (Reach mem blocks roots)
      (fun p s off hR hps hoff hbase =>
        Reach.step p s off (mem (p + off)) hR hps hoff rfl hbase)
      (st.length + 1) st (mem q) hbp
      (fun hbase => Reach.root (mem q) (hroot q (List.mem_cons_self q qs)) hbase)
      hsound
    have hbp2 : blocksProj (gcMarkFull mem st (mem q)) = blocks :=
      (markExtends_blocksProj
        (gc_mark_extends mem (st.length + 1) st (mem q))).symm.trans hbp
    exact ih (gcMarkFull mem st (mem q))
      (fun p hp => hroot p (List.mem_cons_of_mem q hp)) hbp2 hstep

/-- In a closed state whose root-matching entries are all marked, every
entry with a reachable base is marked. -/
theorem reach_marked (mem : Nat → Nat) (blocks : List (Nat × Nat))
    (roots : List Nat) (r : List Allocation) (hbp : blocksProj r = blocks)
    (hclosed : ClosedExcept mem [] r)
    (hroots : ∀ v ∈ roots, ∀ a ∈ r, a.ptr = v → a.marked = true) :
    ∀ v, Reach mem blocks roots v → ∀ a ∈ r, a.ptr = v → a.marked = true := by
  intro v hv
  induction hv with
  | root w hw hbase => exact hroots w hw
  | step p s off w hp hps hoff hmemw hbase ih =>
    intro a ha haw
    have hps2 : (p, s) ∈ blocksProj r := by rw [hbp]; exact hps
    obtain ⟨pa, hpa, hpaeq⟩ := List.mem_map.mp hps2
    injection hpaeq with hpap hpas
    have hpm : pa.marked = true := ih pa hpa hpap
    have hcv : mem (pa.ptr + off) ∈ childVals mem pa.ptr pa.size := by
      apply List.mem_map_of_mem
      rw [hpas]
      exact hoff
    rcases hclosed pa hpa hpm _ hcv with h1 | h1
    · exact absurd h1 (List.not_mem_nil _)
    · apply h1 a ha
      rw [haw, ← hmemw, hpap]

/-! ## Sweep of a marked state, as a filter of the original registry -/

theorem length_countP_split (p : Allocation → Bool) (l : List Allocation) :
    l.countP p + l.countP (fun a => !p a) = l.length := by
  induction l with
  | nil => rfl
  | cons a rest ih =>
    simp only [List.countP_cons, List.length_cons]
    cases hpa : p a <;> simp [hpa] <;> omega

theorem sweep_filter_of_marks (P : Nat → Prop) [DecidablePred P] :
    ∀ (l r : List Allocation), MarkExtends l r →
      (∀ a ∈ l, a.marked = false) →
      (∀ b ∈ r, (b.marked = true ↔ P b.ptr)) →
      (gc_sweep r).1 = l.filter (fun a => decide (P a.ptr)) := by
  intro l r h
  induction h with
  | nil => intro _ _; rfl
  | @cons a b l1 l2 hab htail ih =>
    intro hl hr
    have ham : a.marked = false := hl a (List.mem_cons_self a l1)
    have hbi : b.marked = true ↔ P b.ptr := hr b (List.mem_cons_self b l2)
    have htl := ih (fun x hx => hl x (List.mem_cons_of_mem a hx))
      (fun x hx => hr x (List.mem_cons_of_mem b hx))
    by_cases hPa : P a.ptr
    · have hPb : P b.ptr := by rw [← hab.1]; exact hPa
      have hbm : b.marked = true := hbi.mpr hPb
      rw [gc_sweep_cons_marked b l2 hbm]
      show { b with marked := false } :: (gc_sweep l2).1 =
        List.filter (fun a => decide (P a.ptr)) (a :: l1)
      rw [List.filter_cons, if_pos (decide_eq_true hPa)]
      congr 1
      obtain ⟨hp, hs, hd, _⟩ := hab
      cases a with
      | mk ap asz am ad =>
        cases b with
        | mk bp bsz bm bd =>
          simp only at hp hs hd ham
          subst hp
          subst hs
          subst hd
          rw [ham]
    · have hPb : ¬P b.ptr := by rw [← hab.1]; exact hPa
      have hbm : b.marked = false := by
        cases hbb : b.marked with
        | false => rfl
        | true => exact absurd (hbi.mp hbb) hPb
      rw [gc_sweep_cons_unmarked b l2 hbm]
      show (gc_sweep l2).1 = List.filter (fun a => decide (P a.ptr)) (a :: l1)
      rw [List.filter_cons, if_neg (by simpa using hPa)]
      exact htl

/-! ## Claim C1 (collect retains exactly the conservatively reachable blocks) -/

open Classical in
/-- C1: starting from the registry as it stands between cycles (all mark
flags false, the spec's own invariant), `gc_collect` retains exactly the
entries whose base address is conservatively reachable — some scanned
root word equals it, or transitively some scanned word of a reachable
block equals it — and removes every other entry, so the live-block count
drops by exactly the number of unreachable (orphaned) entries. -/
theorem collect_reclaims_exactly_unreachable (mem : Nat → Nat) (stack_top : Nat)
    (gc : GarbageCollector) (hm : ∀ a ∈ gc.allocations, a.marked = false) :
    (gc_collect mem stack_top gc).allocations =
      gc.allocations.filter (fun a => decide
        (Reach mem (blocksProj gc.allocations)
          (rootVals mem stack_top gc.stack_bottom) a.ptr)) ∧
    gc_count_allocations (gc_collect mem stack_top gc) +
      gc.allocations.countP (fun a => !decide
        (Reach mem (blocksProj gc.allocations)
          (rootVals mem stack_top gc.stack_bottom) a.ptr)) =
      gc_count_allocations gc := by
  have hcl0 : ClosedExcept mem [] gc.allocations := by
    intro a ha ham
    rw [hm a ha] at ham
    exact Bool.noConfusion ham
  have hspec := markRoots_spec mem (rootAddrs stack_top gc.stack_bottom)
    gc.allocations hcl0
  have hsound := markRoots_sound mem (blocksProj gc.allocations)
    (rootVals mem stack_top gc.stack_bottom)
    (rootAddrs stack_top gc.stack_bottom) gc.allocations
    (fun p hp => List.mem_map_of_mem mem hp) rfl
    (fun a ha ham => by rw [hm a ha] at ham; exact Bool.noConfusion ham)
  have hbpr : blocksProj ((rootAddrs stack_top gc.stack_bottom).foldl
      (fun s p => gcMarkFull mem s (mem p)) gc.allocations)
      = blocksProj gc.allocations :=
    (markExtends_blocksProj hspec.2.1).symm
  have hroots2 : ∀ v ∈ rootVals mem stack_top gc.stack_bottom,
      ∀ a ∈ (rootAddrs stack_top gc.stack_bottom).foldl
        (fun s p => gcMarkFull mem s (mem p)) gc.allocations,
      a.ptr = v → a.marked = true := by
    intro v hv a ha hav
    obtain ⟨p, hp, hpv⟩ := List.mem_map.mp hv
    exact hspec.2.2 p hp a ha (by rw [hav, ← hpv])
  have hcomplete := reach_marked mem (blocksProj gc.allocations)
    (rootVals mem stack_top gc.stack_bottom)
    ((rootAddrs stack_top gc.stack_bottom).foldl
      (fun s p => gcMarkFull mem s (mem p)) gc.allocations)
    hbpr hspec.1 hroots2
  have hiff : ∀ b ∈ (rootAddrs stack_top gc.stack_bottom).foldl
      (fun s p => gcMarkFull mem s (mem p)) gc.allocations,
      (b.marked = true ↔ Reach mem (blocksProj gc.allocations)
        (rootVals mem stack_top gc.stack_bottom) b.ptr) := by
    intro b hb
    constructor
    · intro hbm
      exact hsound b hb hbm
    · intro hrb
      exact hcomplete b.ptr hrb b hb rfl
  have hfilter := sweep_filter_of_marks
    (fun x => Reach mem (blocksProj gc.allocations)
      (rootVals mem stack_top gc.stack_bottom) x)
    gc.allocations
    ((rootAddrs stack_top gc.stack_bottom).foldl
      (fun s p => gcMarkFull mem s (mem p)) gc.allocations)
    hspec.2.1 hm hiff
  have hall : (gc_collect mem stack_top gc).allocations =
      (gc_sweep ((rootAddrs stack_top gc.stack_bottom).foldl
        (fun s p => gcMarkFull mem s (mem p)) gc.allocations)).1 := rfl
  constructor
  · rw [hall, hfilter]
  · show (gc_collect mem stack_top gc).allocations.length + _ = gc.allocations.length
    rw [hall, hfilter, ← List.countP_eq_length_filter]
    exact length_countP_split _ _

open Classical in
theorem collect_reclaims_exactly_unreachable_witness :
    (gc_collect (fun _ => 0) 0 (GarbageCollector.mk [] 0)).allocations = [] := by
  have h := (collect_reclaims_exactly_unreachable (fun _ => 0) 0
    (GarbageCollector.mk [] 0)
    (fun a ha => absurd ha (List.not_mem_nil a))).1
  simpa using h

/-! ## Claim C6 (termination of the mark recursion) -/

theorem foldl_mark_congr (mem : Nat → Nat) (B : Nat)
    (g1 g2 : List Allocation → Nat → List Allocation)
    (hg12 : ∀ s c, unmarkedCount s < B → g1 s c = g2 s c)
    (hext : ∀ s c, MarkExtends s (g1 s c)) :
    ∀ (cs : List Nat) (s : List Allocation), unmarkedCount s < B →
      List.foldl g1 s cs = List.foldl g2 s cs := by
  intro cs
  induction cs with
  | nil => intro s h; rfl
  | cons c cs2 ih =>
    intro s h
    rw [List.foldl_cons, List.foldl_cons]
    rw [← hg12 s c h]
    have hle := unmarkedCount_le (hext s c)
    exact ih (g1 s c) (Nat.lt_of_le_of_lt hle h)

theorem gcMarkGo_congr (mem : Nat → Nat) (B : Nat)
    (g1 g2 : List Allocation → Nat → List Allocation)
    (hg12 : ∀ s c, unmarkedCount s < B → g1 s c = g2 s c)
    (hext : ∀ s c, MarkExtends s (g1 s c)) (v : Nat) :
    ∀ (idxs : List Nat) (st : List Allocation), unmarkedCount st ≤ B →
      gcMarkGo mem g1 v idxs st = gcMarkGo mem g2 v idxs st := by
  intro idxs
  induction idxs with
  | nil => intro st h; rfl
  | cons i rest ih =>
    intro st h
    cases hgi : st.get? i with
    | none =>
      rw [gcMarkGo_cons_none mem g1 v i rest st hgi,
        gcMarkGo_cons_none mem g2 v i rest st hgi]
      exact ih st h
    | some a =>
      rw [gcMarkGo_cons_some mem g1 v i rest st a hgi,
        gcMarkGo_cons_some mem g2 v i rest st a hgi]
      by_cases hc : a.ptr = v ∧ a.marked = false
      · rw [if_pos hc, if_pos hc]
        have hcnt1 := unmarkedCount_set_marked st i a hgi hc.2
        have hpos := unmarkedCount_pos st i a hgi hc.2
        have hlt1 : unmarkedCount (st.set i { a with marked := true }) < B := by
          omega
        have hfold : List.foldl g1 (st.set i { a with marked := true })
            (childVals mem a.ptr a.size) =
            List.foldl g2 (st.set i { a with marked := true })
              (childVals mem a.ptr a.size) :=
          foldl_mark_congr mem B g1 g2 hg12 hext (childVals mem a.ptr a.size) _ hlt1
        rw [← hfold]
        have hle : unmarkedCount (List.foldl g1
            (st.set i { a with marked := true }) (childVals mem a.ptr a.size)) ≤
            unmarkedCount (st.set i { a with marked := true }) :=
          unmarkedCount_le (foldl_markExtends g1 hext _ _)
        exact ih _ (Nat.le_trans hle (Nat.le_of_lt hlt1))
      · rw [if_neg hc, if_neg hc]
        exact ih st h

theorem gc_mark_fuel_succ (mem : Nat → Nat) :
    ∀ (f : Nat) (st : List Allocation) (v : Nat), unmarkedCount st < f →
      gc_mark mem f st v = gc_mark mem (f + 1) st v := by
  intro f
  induction f with
  | zero => intro st v h; exact absurd h (Nat.not_lt_zero _)
  | succ f ih =>
    intro st v h
    show gcMarkGo mem (fun s c => gc_mark mem f s c) v (List.range st.length) st =
      gcMarkGo mem (fun s c => gc_mark mem (f + 1) s c) v (List.range st.length) st
    exact gcMarkGo_congr mem f (fun s c => gc_mark mem f s c)
      (fun s c => gc_mark mem (f + 1) s c)
      (fun s c hsc => ih s c hsc)
      (fun s c => gc_mark_extends mem f s c) v (List.range st.length) st
      (Nat.lt_succ_iff.mp h)

theorem gc_mark_fuel_add (mem : Nat → Nat) :
    ∀ (k f : Nat) (st : List Allocation) (v : Nat), unmarkedCount st < f →
      gc_mark mem f st v = gc_mark mem (f + k) st v := by
  intro k
  induction k with
  | zero => intro f st v h; rfl
  | succ k ih =>
    intro f st v h
    rw [ih f st v h]
    have h2 : unmarkedCount st < f + k := Nat.lt_of_lt_of_le h (Nat.le_add_right f k)
    rw [gc_mark_fuel_succ mem (f + k) st v h2]
    rfl

/-- C6: the fueled `gc_mark` stabilizes once the fuel exceeds the number
of unmarked entries: every recursive call follows a fresh marking, so
the number of unmarked entries strictly decreases along each recursion
path, recursion depth `unmarkedCount + 1` always suffices, and the C
recursion terminates on every finite registry and start word. -/
theorem mark_recursion_terminates (mem : Nat → Nat) (st : List Allocation)
    (v : Nat) (fuel : Nat) (h : unmarkedCount st < fuel) :
    gc_mark mem fuel st v = gc_mark mem (unmarkedCount st + 1) st v := by
  have hbase := gc_mark_fuel_add mem (fuel - (unmarkedCount st + 1))
    (unmarkedCount st + 1) st v (Nat.lt_succ_self _)
  have harith : unmarkedCount st + 1 + (fuel - (unmarkedCount st + 1)) = fuel := by
    omega
  rw [harith] at hbase
  exact hbase.symm

theorem mark_recursion_terminates_witness :
    gc_mark (fun _ => 0) 5 [Allocation.mk 100 8 false none] 100 =
      gc_mark (fun _ => 0) (unmarkedCount [Allocation.mk 100 8 false none] + 1)
        [Allocation.mk 100 8 false none] 100 :=
  mark_recursion_terminates (fun _ => 0) [Allocation.mk 100 8 false none] 100 5
    (by decide)
